import Mathlib

/-!
Verification of the retrieval core of the `norman` legal-RAG backend.

The definitions below are shallow embeddings of the Python sources under
`backend/app`: candidate dictionaries become association lists that keep
Python's `dict` insertion-order semantics, floating-point scores become
exact rationals, and the external services (vector store, graph store,
cross-encoder, LLM) become oracle parameters.  Each embedded function names
the source function it models in its doc comment.
-/

set_option maxRecDepth 4000

namespace Norman

/-- The payload dictionary carried by a retrieval result
(`backend/app/pipelines/*`, `backend/app/models/schemas.py`).  Fields a
given producer does not set default to the empty string, matching
`payload.get(key, "")` reads in the Python code. -/
structure Payload where
  law_id : String := ""
  law_title : String := ""
  article_title : String := ""
  article_caption : String := ""
  chapter_title : String := ""
  paragraph_num : String := ""
  text : String := ""
  text_with_context : String := ""
  highlight_path : List (String × String) := []
deriving DecidableEq, Repr

/-- One retrieval candidate: the result dict produced by the vector store
wrapper or by graph promotion (`backend/app/pipelines/base.py`,
`backend/app/pipelines/graph_rag.py`).  `rerank_score`, `original_score`
and `raw_rerank_score` are the keys `BGEReranker.rerank` adds to a copy;
they are absent (`none`) before reranking. -/
structure Candidate where
  id : String
  score : ℚ
  payload : Payload := {}
  source : String := ""
  rerank_score : Option ℚ := none
  original_score : Option ℚ := none
  raw_rerank_score : Option ℚ := none
deriving DecidableEq, Repr

/-- `app.models.schemas.SourceDocument` as filled by
`BasePipeline._to_source_document`. -/
structure SourceDocument where
  law_title : String
  article : String
  text : String
  score : ℚ
  highlight_path : List (String × String)
  law_id : String
  chapter_title : String
  article_caption : String
  paragraph_num : String
deriving DecidableEq, Repr

/-- `app.services.graph_service.GraphResult`.  Optional fields are `None`
in Python when the graph node lacks them. -/
structure GraphResult where
  law_id : String
  law_title : String
  article_num : String
  article_title : Option String
  article_caption : Option String
  chunk_id : Option String
  relevance : ℚ
  path : List String
  source : String := "graph"
deriving DecidableEq, Repr

/-! ## Python dict as an insertion-ordered association list

`all_results` in `BasePipeline._vector_search_multi` and
`GraphRAGPipeline.chat` is a Python `dict` keyed by chunk id.  A Python
dict preserves insertion order; assigning to an existing key replaces the
value in place, assigning to a fresh key appends. -/

/-- Lookup in the association list (Python `d.get(k)` / `k in d`). -/
def alistFind? (k : String) : List (String × Candidate) → Option Candidate
  | [] => none
  | (k₂, v) :: t => if k₂ = k then some v else alistFind? k t

/-- Python `d[k] = v`: replace in place if the key is present, append
otherwise. -/
def alistInsert (k : String) (v : Candidate) :
    List (String × Candidate) → List (String × Candidate)
  | [] => [(k, v)]
  | (k₂, v₂) :: t => if k₂ = k then (k, v) :: t else (k₂, v₂) :: alistInsert k v t

/-- Python `d.keys()` in insertion order. -/
def alistKeys (m : List (String × Candidate)) : List String :=
  m.map Prod.fst

/-- Python `d.values()` in insertion order. -/
def alistValues (m : List (String × Candidate)) : List Candidate :=
  m.map Prod.snd

/-! ## The merge of `BasePipeline._vector_search_multi` (base.py 149-179)

```python
for r in results:
    chunk_id = r.get("id", str(r.get("payload", {}).get("chunk_id", "")))
    existing_score = all_results.get(chunk_id, {}).get("score", 0)
    if chunk_id not in all_results or r.get("score", 0) > existing_score:
        r["source"] = "vector"
        all_results[chunk_id] = r
```

Every result dict returned by the store wrappers carries an `"id"` key, so
`chunk_id` is `r["id"]`, embedded as `r.id`. -/

/-- `r["source"] = "vector"` before storing. -/
def retagVector (r : Candidate) : Candidate :=
  { r with source := "vector" }

/-- One iteration of the merge loop: insert the candidate (tagged by `tag`)
when its chunk id is unseen or its score strictly exceeds the stored one. -/
def mergeStep (tag : Candidate → Candidate) (m : List (String × Candidate))
    (r : Candidate) : List (String × Candidate) :=
  match alistFind? r.id m with
  | none => alistInsert r.id (tag r) m
  | some b => if b.score < r.score then alistInsert r.id (tag r) m else m

/-- `BasePipeline._vector_search_multi`: fold the per-search-text result
lists (one list per entry of `search_texts`, given here as the oracle
output of the store) into the deduplicating dict. -/
def vector_search_multi (resultLists : List (List Candidate)) :
    List (String × Candidate) :=
  resultLists.foldl (fun m rs => rs.foldl (mergeStep retagVector) m) []

/-- The step-5 merge of `GraphRAGPipeline.chat` (graph_rag.py 165-169):

```python
for chunk_id, r in vector_results.items():
    if chunk_id not in all_results or r.get("score", 0) > all_results[chunk_id].get("score", 0):
        all_results[chunk_id] = r
```

`g` is `all_results` (holding the promoted graph candidates) and `v` is
`vector_results`. -/
def fuseGraphVector (g v : List (String × Candidate)) :
    List (String × Candidate) :=
  v.foldl
    (fun m kr =>
      match alistFind? kr.1 m with
      | none => alistInsert kr.1 kr.2 m
      | some b => if b.score < kr.2.score then alistInsert kr.1 kr.2 m else m)
    g

/-- The per-key effect of one merge iteration, used to state what the merge
folds compute: a fresh candidate is stored (tagged), a stored one is
replaced only when the newcomer's score strictly exceeds it. -/
def mergeAcc (tag : Candidate → Candidate) (acc : Option Candidate)
    (c : Candidate) : Option Candidate :=
  match acc with
  | none => some (tag c)
  | some b => if b.score < c.score then some (tag c) else some b

/-! ## Stable descending sort

Python's `sorted(xs, key=f, reverse=True)` and `xs.sort(key=f, reverse=True)`
are stable: elements with equal keys keep their relative order.  The
insertion sort below reproduces that: an element is inserted after every
already-placed element whose key is greater than or equal to its own key
never jumps ahead of an equal key that was produced earlier. -/

section StableSort

variable {α : Type}

/-- Insert `x` into `l` (already sorted descending by `f`), before the first
element with a key less than or equal to `f x`. -/
def insertDescBy (f : α → ℚ) (x : α) : List α → List α
  | [] => [x]
  | y :: l => if f y ≤ f x then x :: y :: l else y :: insertDescBy f x l

/-- Stable sort, descending by the key `f`. -/
def sortDescBy (f : α → ℚ) : List α → List α
  | [] => []
  | x :: l => insertDescBy f x (sortDescBy f l)

end StableSort

namespace BasePipeline

/-- `BasePipeline.min_score_threshold` default, `0.25`. -/
def min_score_threshold_default : ℚ := ⟨1, 4, by decide, by decide⟩

/-- The sort of `BasePipeline._filter_and_sort_results` (base.py 181-203):
`sorted(all_results.values(), key=lambda x: x.get("score", 0), reverse=True)`. -/
def sorted_results (m : List (String × Candidate)) : List Candidate :=
  sortDescBy (fun r => r.score) (alistValues m)

/-- `BasePipeline._filter_and_sort_results` (base.py 181-203): sort by score
descending, keep scores at or above the threshold `t`
(`self.min_score_threshold`), and fall back to the top 3 of the unfiltered
sort when the filter empties the list. -/
def filter_and_sort_results (t : ℚ) (m : List (String × Candidate)) :
    List Candidate :=
  let sorted := sorted_results m
  let filtered := sorted.filter (fun r => t ≤ r.score)
  if filtered.isEmpty then sorted.take 3 else filtered

end BasePipeline

/-! ## `BGEReranker.rerank` (reranker.py 55-134) -/

namespace BGEReranker

/-- Truthiness of Python `text.strip()`: true when the text has at least one
non-whitespace character. -/
def stripTruthy (s : String) : Bool :=
  s.data.any (fun c => !c.isWhitespace)

/-- A document that takes part in cross-encoder rescoring:
`text.strip()` is truthy for `text = doc.get("payload", {}).get("text", "")`. -/
def validDoc (d : Candidate) : Bool :=
  stripTruthy d.payload.text

/-- The `scored_docs` construction: each valid document, paired with its
probability, is copied with `rerank_score`, `original_score` and an updated
`score` (`zip` truncates like Python's `zip`). -/
def scoredDocs (ps : List ℚ) (valid : List Candidate) : List Candidate :=
  (valid.zip ps).map (fun dp =>
    { dp.1 with
      rerank_score := some dp.2
      original_score := some dp.1.score
      score := dp.2 })

/-- The normalization loop after the sort: when the maximal rerank score
(the head of the descending-sorted list) is positive, every document gets
`raw_rerank_score` recorded and `score` rescaled to `rerank_score / max`;
otherwise the list is left as is. -/
def normalizeByMax (sorted : List Candidate) : List Candidate :=
  match sorted.head? with
  | none => sorted
  | some top =>
    let mx := top.rerank_score.getD 0
    if 0 < mx then
      sorted.map (fun d =>
        { d with
          raw_rerank_score := d.rerank_score
          score := d.rerank_score.getD 0 / mx })
    else sorted

/-- `BGEReranker.rerank(query, documents, top_k)`.

The cross-encoder is an oracle: `probs` stands for
`[sigmoid(s) for s in self.model.predict(pairs)]`, one entry per valid
document pair, with `probs = none` when `predict` raises (the code then
returns `documents[:top_k]`).  Because `sigmoid(x) = 1/(1+exp(-x))` is
strictly positive and below one, any faithful instantiation of `probs`
takes values in the open interval `(0, 1)`; theorems that need positivity
take it as a hypothesis.

The steps mirror the source: drop blank-text documents, pair the rest
with their probabilities, copy each dict with the rerank scores, sort by
`rerank_score` descending (Python `list.sort` is stable), normalize when
the maximal rerank score is positive, and truncate to `top_k`. -/
def rerank (probs : Option (List ℚ)) (documents : List Candidate)
    (top_k : Nat) : List Candidate :=
  if documents.isEmpty then []
  else
    let valid := documents.filter validDoc
    if valid.isEmpty then documents.take top_k
    else
      match probs with
      | none => documents.take top_k
      | some ps =>
        (normalizeByMax
          (sortDescBy (fun d => d.rerank_score.getD 0) (scoredDocs ps valid))).take top_k

end BGEReranker

/-! ## `QueryRouter` (query_router.py)

The three entity regexes are embedded as direct matchers over `List Char`,
reproducing Python `re` semantics for these specific patterns: a scan from
left to right, at each position a greedy (longest-group-first, with
backtracking) attempt, and non-overlapping continuation after each match.

The character class `[ぁ-んァ-ン一-龯]` is the three inclusive ranges
U+3041-U+3093, U+30A1-U+30F3 and U+4E00-U+9FAF; `\d` is a decimal digit. -/

inductive QueryType where
  | SEMANTIC
  | ENTITY_LOOKUP
  | MULTI_HOP
  | HYBRID
deriving DecidableEq, Repr

structure RoutedQuery where
  original_query : String
  query_type : QueryType
  entities : List (String × String)
  use_graph : Bool
  use_vector : Bool
deriving DecidableEq, Repr

namespace QueryRouter

/-- Membership in the class `[ぁ-んァ-ン一-龯]` of the entity patterns. -/
def entityClassChar (c : Char) : Bool :=
  (0x3041 ≤ c.toNat && c.toNat ≤ 0x3093) ||
  (0x30A1 ≤ c.toNat && c.toNat ≤ 0x30F3) ||
  (0x4E00 ≤ c.toNat && c.toNat ≤ 0x9FAF)

/-- Match `第(\d+)条` at the start of `s`; on success return the digit group
and the number of characters consumed. -/
def matchDaiJo (s : List Char) : Option (List Char × Nat) :=
  match s with
  | [] => none
  | c :: rest =>
    if c = '第' then
      let ds := rest.takeWhile Char.isDigit
      if ds.isEmpty then none
      else
        match rest.drop ds.length with
        | c₂ :: _ => if c₂ = '条' then some (ds, ds.length + 2) else none
        | [] => none
    else none

/-- Greedy search for the group `([ぁ-んァ-ン一-龯]+法)` of the
`law_article` pattern: try group lengths from `g` (at most the class run at
this position) down to 2, requiring the group to end in `法` and
`第(\d+)条` to follow.  Returns (consumed, law group, digit group). -/
def lawArticleTry (s : List Char) : Nat → Option (Nat × List Char × List Char)
  | 0 => none
  | 1 => none
  | g + 2 =>
    (if (s.drop (g + 1)).head? = some '法' then
      match matchDaiJo (s.drop (g + 2)) with
      | some (ds, len₂) => some (g + 2 + len₂, s.take (g + 2), ds)
      | none => none
     else none).orElse (fun _ => lawArticleTry s (g + 1))

/-- The pattern `([ぁ-んァ-ン一-龯]+法)第(\d+)条` at the start of `s`. -/
def matchLawArticleAt (s : List Char) : Option (Nat × (List Char × List Char)) :=
  match lawArticleTry s ((s.takeWhile entityClassChar).length) with
  | some (len, law, ds) => some (len, (law, ds))
  | none => none

/-- The pattern `第(\d+)条(?:の(\d+))?` at the start of `s`. -/
def matchArticleOnlyAt (s : List Char) :
    Option (Nat × (List Char × Option (List Char))) :=
  match matchDaiJo s with
  | none => none
  | some (ds, len) =>
    match s.drop len with
    | c :: rest₂ =>
      if c = 'の' then
        let es := rest₂.takeWhile Char.isDigit
        if es.isEmpty then some (len, (ds, none))
        else some (len + 1 + es.length, (ds, some es))
      else some (len, (ds, none))
    | [] => some (len, (ds, none))

/-- Greedy search for `([ぁ-んァ-ン一-龯]+法)` alone: the longest group
(at most the class run) ending in `法`. -/
def lawNameTry (s : List Char) : Nat → Option Nat
  | 0 => none
  | 1 => none
  | g + 2 =>
    if (s.drop (g + 1)).head? = some '法' then some (g + 2)
    else lawNameTry s (g + 1)

/-- The pattern `([ぁ-んァ-ン一-龯]+法)` at the start of `s`. -/
def matchLawNameAt (s : List Char) : Option (Nat × List Char) :=
  match lawNameTry s ((s.takeWhile entityClassChar).length) with
  | some len => some (len, s.take len)
  | none => none

/-- `re.finditer` for a matcher that never matches the empty string: scan
left to right, emit each match and continue right after it, advance one
character on failure.  `fuel` starts at the length of the text. -/
def finditerAux {γ : Type} (matcher : List Char → Option (Nat × γ)) :
    Nat → List Char → List γ
  | 0, _ => []
  | _, [] => []
  | fuel + 1, s@(_ :: rest) =>
    match matcher s with
    | some (len, g) => g :: finditerAux matcher fuel (s.drop (max len 1))
    | none => finditerAux matcher fuel rest

/-- All non-overlapping matches of `matcher` in `s`, left to right. -/
def finditer {γ : Type} (matcher : List Char → Option (Nat × γ))
    (s : List Char) : List γ :=
  finditerAux matcher s.length s

/-- `needle in hay` on Python strings: contiguous substring test. -/
def strContains (hay needle : String) : Bool :=
  go needle.data hay.data
where
  go (n : List Char) : List Char → Bool
    | [] => n.isEmpty
    | h@(_ :: t) => (n.isPrefixOf h) || go n t

/-- `QueryRouter._extract_entities` (query_router.py 113-154): the three
patterns applied in order.  A `law_name` match is added only when it is not
a substring of an entity collected so far; `law_article` and `article_only`
matches are always added.  Finally duplicates are removed keeping the first
occurrence. -/
def extract_entities (text : String) : List (String × String) :=
  let s := text.data
  let lawArticle := (finditer matchLawArticleAt s).map (fun p =>
    (String.mk p.1 ++ "第" ++ String.mk p.2 ++ "条", "law_article"))
  let articleOnly := (finditer matchArticleOnlyAt s).map (fun p =>
    match p.2 with
    | some sub => ("第" ++ String.mk p.1 ++ "条の" ++ String.mk sub, "article")
    | none => ("第" ++ String.mk p.1 ++ "条", "article"))
  let withLaw := (finditer matchLawNameAt s).foldl
    (fun acc p =>
      let law := String.mk p
      if acc.any (fun e => strContains e.1 law) then acc
      else acc ++ [(law, "law")])
    (lawArticle ++ articleOnly)
  dedupKeepFirst [] withLaw
where
  /-- The `seen` set loop at the end of `_extract_entities`. -/
  dedupKeepFirst (seen : List (String × String)) :
      List (String × String) → List (String × String)
    | [] => []
    | e :: t =>
      if e ∈ seen then dedupKeepFirst seen t
      else e :: dedupKeepFirst (e :: seen) t

/-- `QueryRouter.RELATIONSHIP_KEYWORDS`. -/
def RELATIONSHIP_KEYWORDS : List String :=
  ["liên quan", "related", "tham chiếu", "references",
   "kết nối", "connected", "điều khác", "các điều",
   "quy định tại", "theo điều", "dựa trên"]

/-- `QueryRouter.LOOKUP_KEYWORDS`. -/
def LOOKUP_KEYWORDS : List String :=
  ["là gì", "nói gì", "quy định gì", "what is",
   "điều", "khoản", "mục", "chương"]

/-- `QueryRouter._is_relationship_query`.  (`str.lower` is modelled by
`String.toLower`; the keywords themselves contain no uppercase letters.) -/
def is_relationship_query (query : String) : Bool :=
  RELATIONSHIP_KEYWORDS.any (fun kw => strContains query.toLower kw)

/-- `QueryRouter._is_lookup_query`. -/
def is_lookup_query (query : String) : Bool :=
  LOOKUP_KEYWORDS.any (fun kw => strContains query.toLower kw)

/-- `QueryRouter.route` (query_router.py 64-111). -/
def route (query : String) : RoutedQuery :=
  let entities := extract_entities query
  let is_relationship := is_relationship_query query
  let is_lookup := is_lookup_query query
  if entities ≠ [] ∧ is_lookup ∧ ¬is_relationship then
    ⟨query, QueryType.ENTITY_LOOKUP, entities, true, false⟩
  else if entities ≠ [] ∧ is_relationship then
    ⟨query, QueryType.MULTI_HOP, entities, true, true⟩
  else if entities ≠ [] then
    ⟨query, QueryType.HYBRID, entities, true, true⟩
  else
    ⟨query, QueryType.SEMANTIC, entities, false, true⟩

end QueryRouter

/-! ## `QueryTranslator` (query_translator.py) -/

namespace QueryTranslator

/-- Python `char.isspace()` for the characters that occur in queries
(ASCII whitespace plus the ideographic and no-break spaces). -/
def pyIsSpace (c : Char) : Bool :=
  c = ' ' || c = '\t' || c = '\n' || c = '\r' ||
  c = '\x0b' || c = '\x0c' || c = '　' || c = ' '

/-- The punctuation skipped by `_is_japanese`:
`char in '()（）「」、。？！.,?!'`. -/
def skippedPunct : List Char :=
  ['(', ')', '（', '）', '「', '」', '、', '。', '？', '！', '.', ',', '?', '!']

/-- The characters `_is_japanese` counts (neither whitespace nor skipped
punctuation). -/
def countableChars (text : String) : List Char :=
  text.data.filter (fun c => !(pyIsSpace c || skippedPunct.contains c))

/-- `total_chars` of `_is_japanese`. -/
def totalCount (text : String) : Nat :=
  (countableChars text).length

/-- A character in one of the three counted ranges: Hiragana
U+3040-U+309F, Katakana U+30A0-U+30FF, CJK ideographs U+4E00-U+9FFF. -/
def isJpScriptChar (c : Char) : Bool :=
  (0x3040 ≤ c.toNat && c.toNat ≤ 0x309F) ||
  (0x30A0 ≤ c.toNat && c.toNat ≤ 0x30FF) ||
  (0x4E00 ≤ c.toNat && c.toNat ≤ 0x9FFF)

/-- `jp_chars` of `_is_japanese`. -/
def jpCount (text : String) : Nat :=
  ((countableChars text).filter isJpScriptChar).length

/-- `QueryTranslator._is_japanese` (query_translator.py 183-223): the
character-ratio heuristic.  Empty text and text with no countable
characters are not Japanese; otherwise compare the ratio with the
threshold (default `0.5`). -/
def is_japanese (text : String) (threshold : ℚ) : Bool :=
  if text = "" then false
  else if totalCount text = 0 then false
  else decide (threshold ≤ (jpCount text : ℚ) / (totalCount text : ℚ))

/-- `QueryTranslator.translate` (query_translator.py 84-106).  `gen` is the
LLM oracle (`self._llm.generate` on the translation prompt).  The boolean
records whether an LLM call was issued: text detected as Japanese is
returned unchanged with no call, anything else is sent for translation and
the reply is stripped. -/
def translate (gen : String → String) (query : String) : String × Bool :=
  if is_japanese query (1/2) then (query, false)
  else ((gen query).trim, true)

end QueryTranslator

/-! ## `ChatQuery` (backend/app/models/schemas.py 25-37) -/

namespace ChatQuery

/-- Validation of the `top_k` field of the inbound `ChatQuery` request
body, `Field(default=5, ge=1, le=20)`: `none` input means the field is
absent (the default applies); out-of-range values are rejected (`none`
result). -/
def validateTopK (v : Option Int) : Option Int :=
  match v with
  | none => some 5
  | some n => if 1 ≤ n ∧ n ≤ 20 then some n else none

end ChatQuery

/-! ## Graph-result promotion (graph_rag.py 128-147) and
`BasePipeline._to_source_document` (base.py 252-273) -/

/-- Python truthiness of an optional string (`None` and `""` are falsy). -/
def optTruthy (o : Option String) : Bool :=
  match o with
  | none => false
  | some s => s ≠ ""

/-- Python `a or b`: `b` when `a` is falsy. -/
def pyOrOpt (a b : Option String) : Option String :=
  if optTruthy a then a else b

/-- Python `a or dflt` for a string default. -/
def pyOrStr (a : Option String) (dflt : String) : String :=
  if optTruthy a then a.getD "" else dflt

namespace GraphRAGPipeline

/-- The candidate dict built for a graph result in step 3 of
`GraphRAGPipeline.chat`:

```python
all_results[gr.chunk_id] = {
    "id": gr.chunk_id,
    "score": gr.relevance * self.graph_weight,
    "payload": {
        "law_id": gr.law_id,
        "law_title": gr.law_title,
        "article_title": f"第{gr.article_num}条",
        "article_caption": gr.article_caption or "",
        "text": gr.article_caption or gr.article_title or "",
        "highlight_path": {"law": gr.law_title, "article": f"第{gr.article_num}条"},
    },
    "source": "graph",
}
```
-/
def graphResultToCandidate (graph_weight : ℚ) (gr : GraphResult) : Candidate :=
  { id := gr.chunk_id.getD ""
    score := gr.relevance * graph_weight
    payload :=
      { law_id := gr.law_id
        law_title := gr.law_title
        article_title := "第" ++ gr.article_num ++ "条"
        article_caption := pyOrStr gr.article_caption ""
        text := pyOrStr gr.article_caption (pyOrStr gr.article_title "")
        highlight_path :=
          [("law", gr.law_title), ("article", "第" ++ gr.article_num ++ "条")] }
    source := "graph" }

/-- Insert the promoted graph results into the request's `all_results`
dict; a result whose `chunk_id` is falsy is skipped (`if gr.chunk_id:`). -/
def insertGraphResults (graph_weight : ℚ) (grs : List GraphResult)
    (m : List (String × Candidate)) : List (String × Candidate) :=
  grs.foldl
    (fun m gr =>
      if optTruthy gr.chunk_id then
        alistInsert (gr.chunk_id.getD "") (graphResultToCandidate graph_weight gr) m
      else m)
    m

end GraphRAGPipeline

namespace BasePipeline

/-- `BasePipeline._to_source_document` (base.py): project a result dict to
the public `SourceDocument`, truncating the text to 500 characters
(Python `text[:500]` slices code points, embedded as `List.take` on the
character list). -/
def to_source_document (r : Candidate) : SourceDocument :=
  { law_title := r.payload.law_title
    article := r.payload.article_title
    text := String.mk (r.payload.text.data.take 500)
    score := r.score
    highlight_path := r.payload.highlight_path
    law_id := r.payload.law_id
    chapter_title := r.payload.chapter_title
    article_caption := r.payload.article_caption
    paragraph_num := r.payload.paragraph_num }

end BasePipeline

/-- Lexicographic (code-point) order on strings as character lists: what
Python's `<` computes on `str`, used to state the spec's chunk-id
tie-break. -/
def lexLt : List Char → List Char → Bool
  | [], [] => false
  | [], _ :: _ => true
  | _ :: _, [] => false
  | c :: cs, d :: ds =>
    if c.toNat < d.toNat then true
    else if d.toNat < c.toNat then false
    else lexLt cs ds

/-! ## Concrete instances used by witnesses and counterexamples -/

/-- A merged map with two equal-score candidates inserted in reverse
lexicographic order of their chunk ids. -/
def tieMap : List (String × Candidate) :=
  [("b", { id := "b", score := 1 }), ("a", { id := "a", score := 1 })]

/-- One candidate with text and one with empty text, as handed to the
reranker. -/
def blankTextDocs : List Candidate :=
  [{ id := "v", score := 1, payload := { text := "x" } },
   { id := "e", score := 1, payload := { text := "" } }]

/-- Two candidates with non-empty text, as handed to the reranker. -/
def rerankDocs : List Candidate :=
  [{ id := "p", score := 1, payload := { text := "a" } },
   { id := "q", score := 2, payload := { text := "b" } }]

/-- Per-search-text vector results with a chunk id repeated across the
fan-out. -/
def fanoutLists : List (List Candidate) :=
  [[{ id := "a", score := 1 }, { id := "b", score := 2 }],
   [{ id := "a", score := 3 }]]

/-- A graph-candidate map overlapping the vector results on chunk id `b`. -/
def graphSeed : List (String × Candidate) :=
  [("b", { id := "b", score := 5, source := "graph" })]

/-- A merged map whose scores all sit below the threshold `1`. -/
def lowScoreMap : List (String × Candidate) :=
  [("x", { id := "x", score := 0 }), ("y", { id := "y", score := 0 })]

/-- A graph result carrying neither caption nor title. -/
def bareGraphResult : GraphResult :=
  { law_id := "L1", law_title := "", article_num := "3",
    article_title := none, article_caption := none,
    chunk_id := some "c1", relevance := 1, path := [] }

/-! ## Lemmas about the stable sort -/

section StableSortLemmas

variable {α : Type} (f : α → ℚ)

theorem perm_insertDescBy (x : α) (l : List α) :
    List.Perm (insertDescBy f x l) (x :: l) := by
  induction l with
  | nil => simp [insertDescBy]
  | cons y t ih =>
    by_cases h : f y ≤ f x
    · rw [insertDescBy, if_pos h]
    · rw [insertDescBy, if_neg h]
      exact (ih.cons y).trans (List.Perm.swap x y t)

theorem perm_sortDescBy (l : List α) : List.Perm (sortDescBy f l) l := by
  induction l with
  | nil => simp [sortDescBy]
  | cons x t ih =>
    exact (perm_insertDescBy f x (sortDescBy f t)).trans (ih.cons x)

theorem mem_sortDescBy {a : α} {l : List α} :
    a ∈ sortDescBy f l ↔ a ∈ l :=
  (perm_sortDescBy f l).mem_iff

theorem length_sortDescBy (l : List α) :
    (sortDescBy f l).length = l.length :=
  (perm_sortDescBy f l).length_eq

theorem pairwise_insertDescBy {x : α} {l : List α}
    (h : List.Pairwise (fun a b => f b ≤ f a) l) :
    List.Pairwise (fun a b => f b ≤ f a) (insertDescBy f x l) := by
  induction l with
  | nil => simp [insertDescBy]
  | cons y t ih =>
    rcases h with - | ⟨hy, ht⟩
    by_cases hxy : f y ≤ f x
    · rw [insertDescBy, if_pos hxy]
      refine List.Pairwise.cons ?_ (List.Pairwise.cons hy ht)
      intro b hb
      rcases List.mem_cons.mp hb with hb | hb
      · exact hb ▸ hxy
      · exact le_trans (hy b hb) hxy
    · rw [insertDescBy, if_neg hxy]
      refine List.Pairwise.cons ?_ (ih ht)
      intro b hb
      have hb₂ : b ∈ x :: t := (perm_insertDescBy f x t).mem_iff.mp hb
      rcases List.mem_cons.mp hb₂ with hb₃ | hb₃
      · exact hb₃ ▸ le_of_not_le hxy
      · exact hy b hb₃

theorem pairwise_sortDescBy (l : List α) :
    List.Pairwise (fun a b => f b ≤ f a) (sortDescBy f l) := by
  induction l with
  | nil => simp [sortDescBy]
  | cons x t ih => exact pairwise_insertDescBy f ih

theorem filter_insertDescBy (c : ℚ) (x : α) (l : List α) :
    (insertDescBy f x l).filter (fun y => f y == c) =
      if f x == c then x :: l.filter (fun y => f y == c)
      else l.filter (fun y => f y == c) := by
  induction l with
  | nil =>
    by_cases hx : f x == c <;> simp [insertDescBy, List.filter, hx]
  | cons y t ih =>
    by_cases hxy : f y ≤ f x
    · by_cases hx : f x == c <;> simp [insertDescBy, hxy, List.filter, hx]
    · have hlt : f x < f y := lt_of_not_le hxy
      rw [insertDescBy, if_neg hxy]
      by_cases hx : (f x == c) = true
      · have hxc : f x = c := by simpa using hx
        have hyne : f y ≠ c := by
          intro hyc
          rw [hxc, hyc] at hlt
          exact lt_irrefl c hlt
        have hyc : (f y == c) = false := by simpa using hyne
        simp [List.filter_cons, hyc, ih, hx]
      · have hx₂ : (f x == c) = false := by simpa using hx
        simp [List.filter_cons, ih, hx₂]

theorem filter_sortDescBy (c : ℚ) (l : List α) :
    (sortDescBy f l).filter (fun y => f y == c) =
      l.filter (fun y => f y == c) := by
  induction l with
  | nil => simp [sortDescBy]
  | cons x t ih =>
    rw [sortDescBy, filter_insertDescBy, ih, List.filter_cons]

end StableSortLemmas

/-! ## Lemmas about the dict model and the merge folds -/

@[simp] theorem alistFind?_nil (k : String) :
    alistFind? k ([] : List (String × Candidate)) = none := rfl

@[simp] theorem alistFind?_cons (k : String) (e : String × Candidate)
    (t : List (String × Candidate)) :
    alistFind? k (e :: t) = if e.1 = k then some e.2 else alistFind? k t := rfl

@[simp] theorem alistInsert_nil (k : String) (v : Candidate) :
    alistInsert k v [] = [(k, v)] := rfl

@[simp] theorem alistInsert_cons (k : String) (v : Candidate)
    (e : String × Candidate) (t : List (String × Candidate)) :
    alistInsert k v (e :: t) =
      if e.1 = k then (k, v) :: t else e :: alistInsert k v t := rfl

@[simp] theorem alistKeys_nil : alistKeys [] = [] := rfl

@[simp] theorem alistKeys_cons (e : String × Candidate)
    (t : List (String × Candidate)) :
    alistKeys (e :: t) = e.1 :: alistKeys t := rfl

theorem alistFind?_insert_self (k : String) (v : Candidate)
    (m : List (String × Candidate)) :
    alistFind? k (alistInsert k v m) = some v := by
  induction m with
  | nil => simp
  | cons e t ih =>
    by_cases h : e.1 = k
    · simp [h]
    · simp [h, ih]

theorem alistFind?_insert_ne (k₂ k : String) (v : Candidate)
    (m : List (String × Candidate)) (h : k₂ ≠ k) :
    alistFind? k₂ (alistInsert k v m) = alistFind? k₂ m := by
  have hks : ¬(k = k₂) := fun hh => h hh.symm
  induction m with
  | nil => simp [hks]
  | cons e t ih =>
    by_cases he : e.1 = k
    · have h₁ : ¬(e.1 = k₂) := by rw [he]; exact hks
      simp [he, hks, h₁]
    · by_cases he₂ : e.1 = k₂ <;> simp [he, he₂, h, hks, ih]

theorem mem_alistKeys_insert (a k : String) (v : Candidate)
    (m : List (String × Candidate)) :
    a ∈ alistKeys (alistInsert k v m) ↔ a = k ∨ a ∈ alistKeys m := by
  induction m with
  | nil => simp
  | cons e t ih =>
    by_cases he : e.1 = k
    · simp [he]
    · simp [he, ih]
      tauto

theorem nodup_alistKeys_insert (k : String) (v : Candidate)
    (m : List (String × Candidate)) (h : (alistKeys m).Nodup) :
    (alistKeys (alistInsert k v m)).Nodup := by
  induction m with
  | nil => simp
  | cons e t ih =>
    rcases List.nodup_cons.mp h with ⟨he, ht⟩
    by_cases hek : e.1 = k
    · simp only [alistInsert_cons, if_pos hek, alistKeys_cons]
      exact List.nodup_cons.mpr ⟨by rw [← hek]; exact he, ht⟩
    · simp only [alistInsert_cons, if_neg hek, alistKeys_cons]
      refine List.nodup_cons.mpr ⟨?_, ih ht⟩
      intro hmem
      rcases (mem_alistKeys_insert e.1 k v t).mp hmem with h₁ | h₁
      · exact hek h₁
      · exact he h₁

theorem alistFind?_eq_none_of_not_mem (k : String)
    (m : List (String × Candidate)) (h : k ∉ alistKeys m) :
    alistFind? k m = none := by
  induction m with
  | nil => rfl
  | cons e t ih =>
    have h₁ : e.1 ≠ k := fun hh => h (by simp [hh])
    have h₂ : k ∉ alistKeys t := fun hh => h (by simp [hh])
    simp [h₁, ih h₂]

theorem alistFind?_mergeStep (tag : Candidate → Candidate)
    (m : List (String × Candidate)) (r : Candidate) (k : String) :
    alistFind? k (mergeStep tag m r) =
      if r.id = k then mergeAcc tag (alistFind? k m) r
      else alistFind? k m := by
  by_cases hk : r.id = k
  · rw [if_pos hk]
    unfold mergeStep
    cases hf : alistFind? r.id m with
    | none =>
      rw [← hk, hf, mergeAcc]
      exact alistFind?_insert_self r.id (tag r) m
    | some b =>
      by_cases hs : b.score < r.score
      · rw [← hk, hf, mergeAcc, if_pos hs]
        simpa [hs] using alistFind?_insert_self r.id (tag r) m
      · rw [← hk, hf, mergeAcc, if_neg hs]
        simp [hs, hf]
  · rw [if_neg hk]
    unfold mergeStep
    cases hf : alistFind? r.id m with
    | none => exact alistFind?_insert_ne k r.id (tag r) m (fun hh => hk hh.symm)
    | some b =>
      by_cases hs : b.score < r.score
      · simpa [hs] using alistFind?_insert_ne k r.id (tag r) m (fun hh => hk hh.symm)
      · simp [hs]

theorem alistFind?_foldl_mergeStep (tag : Candidate → Candidate)
    (cs : List Candidate) (m : List (String × Candidate)) (k : String) :
    alistFind? k (cs.foldl (mergeStep tag) m) =
      (cs.filter (fun c => c.id == k)).foldl (mergeAcc tag) (alistFind? k m) := by
  induction cs generalizing m with
  | nil => rfl
  | cons c t ih =>
    rw [List.foldl_cons, ih, List.filter_cons, alistFind?_mergeStep]
    by_cases hk : c.id = k
    · simp [hk]
    · simp [hk]

theorem nodup_alistKeys_mergeStep (tag : Candidate → Candidate)
    (m : List (String × Candidate)) (r : Candidate)
    (h : (alistKeys m).Nodup) : (alistKeys (mergeStep tag m r)).Nodup := by
  unfold mergeStep
  cases alistFind? r.id m with
  | none => exact nodup_alistKeys_insert _ _ _ h
  | some b =>
    by_cases hs : b.score < r.score
    · simpa [hs] using nodup_alistKeys_insert r.id (tag r) m h
    · simpa [hs] using h

theorem nodup_alistKeys_foldl_mergeStep (tag : Candidate → Candidate)
    (cs : List Candidate) (m : List (String × Candidate))
    (h : (alistKeys m).Nodup) :
    (alistKeys (cs.foldl (mergeStep tag) m)).Nodup := by
  induction cs generalizing m with
  | nil => exact h
  | cons c t ih => exact ih _ (nodup_alistKeys_mergeStep tag m c h)

theorem vector_search_multi_eq_foldl (rls : List (List Candidate)) :
    vector_search_multi rls =
      rls.flatten.foldl (mergeStep retagVector) [] :=
  (List.foldl_flatten _ _ _).symm

theorem foldl_mergeAcc_some (tag : Candidate → Candidate)
    (hscore : ∀ c, (tag c).score = c.score) (l : List Candidate) :
    ∀ b : Candidate, ∃ c, l.foldl (mergeAcc tag) (some b) = some c ∧
      b.score ≤ c.score ∧ (∀ d ∈ l, d.score ≤ c.score) ∧
      (c = b ∨ ∃ pre d₀ post, l = pre ++ d₀ :: post ∧ c = tag d₀ ∧
        b.score < c.score ∧ ∀ d ∈ pre, d.score < c.score) := by
  induction l with
  | nil => exact fun b => ⟨b, rfl, le_refl _, by simp, Or.inl rfl⟩
  | cons d t ih =>
    intro b
    have hfold : (d :: t).foldl (mergeAcc tag) (some b) =
        t.foldl (mergeAcc tag) (mergeAcc tag (some b) d) := rfl
    by_cases hlt : b.score < d.score
    · obtain ⟨c, hc, hble, hall, hdisj⟩ := ih (tag d)
      have htag : (tag d).score = d.score := hscore d
      refine ⟨c, ?_, ?_, ?_, ?_⟩
      · rw [hfold, mergeAcc, if_pos hlt]
        exact hc
      · exact le_of_lt (lt_of_lt_of_le hlt (htag ▸ hble))
      · intro d₂ hd₂
        rcases List.mem_cons.mp hd₂ with h₁ | h₁
        · exact h₁ ▸ (htag ▸ hble)
        · exact hall d₂ h₁
      · rcases hdisj with h₁ | ⟨pre, d₀, post, hts, hcd, hlt₂, hpre⟩
        · refine Or.inr ⟨[], d, t, rfl, h₁, ?_, by simp⟩
          rw [h₁, htag]
          exact hlt
        · refine Or.inr ⟨d :: pre, d₀, post, by simp [hts], hcd, ?_, ?_⟩
          · exact lt_trans hlt (htag ▸ hlt₂)
          · intro d₂ hd₂
            rcases List.mem_cons.mp hd₂ with h₂ | h₂
            · exact h₂ ▸ (htag ▸ hlt₂)
            · exact hpre d₂ h₂
    · obtain ⟨c, hc, hble, hall, hdisj⟩ := ih b
      refine ⟨c, ?_, hble, ?_, ?_⟩
      · rw [hfold, mergeAcc, if_neg hlt]
        exact hc
      · intro d₂ hd₂
        rcases List.mem_cons.mp hd₂ with h₁ | h₁
        · exact h₁ ▸ le_trans (le_of_not_lt hlt) hble
        · exact hall d₂ h₁
      · rcases hdisj with h₁ | ⟨pre, d₀, post, hts, hcd, hlt₂, hpre⟩
        · exact Or.inl h₁
        · refine Or.inr ⟨d :: pre, d₀, post, by simp [hts], hcd, hlt₂, ?_⟩
          intro d₂ hd₂
          rcases List.mem_cons.mp hd₂ with h₂ | h₂
          · exact h₂ ▸ lt_of_le_of_lt (le_of_not_lt hlt) hlt₂
          · exact hpre d₂ h₂

theorem foldl_mergeAcc_none_spec (tag : Candidate → Candidate)
    (hscore : ∀ c, (tag c).score = c.score) (l : List Candidate) (c : Candidate)
    (h : l.foldl (mergeAcc tag) none = some c) :
    (∀ d ∈ l, d.score ≤ c.score) ∧
      ∃ pre d₀ post, l = pre ++ d₀ :: post ∧ c = tag d₀ ∧
        ∀ d ∈ pre, d.score < c.score := by
  cases l with
  | nil => exact absurd h (by simp)
  | cons d t =>
    have h₂ : t.foldl (mergeAcc tag) (some (tag d)) = some c := by
      rw [← h]
      rfl
    obtain ⟨c₂, hc₂, hble, hall, hdisj⟩ := foldl_mergeAcc_some tag hscore t (tag d)
    have hcc : c₂ = c := by
      rw [hc₂] at h₂
      exact Option.some_injective _ h₂
    subst hcc
    have htag : (tag d).score = d.score := hscore d
    constructor
    · intro d₂ hd₂
      rcases List.mem_cons.mp hd₂ with h₁ | h₁
      · exact h₁ ▸ (htag ▸ hble)
      · exact hall d₂ h₁
    · rcases hdisj with h₁ | ⟨pre, d₀, post, hts, hcd, hlt₂, hpre⟩
      · exact ⟨[], d, t, rfl, h₁, by simp⟩
      · refine ⟨d :: pre, d₀, post, by simp [hts], hcd, ?_⟩
        intro d₂ hd₂
        rcases List.mem_cons.mp hd₂ with h₂ | h₂
        · exact h₂ ▸ (htag ▸ hlt₂)
        · exact hpre d₂ h₂

theorem alistFind?_fuseGraphVector (g v : List (String × Candidate))
    (k : String) (hv : (alistKeys v).Nodup) :
    alistFind? k (fuseGraphVector g v) =
      match alistFind? k v with
      | none => alistFind? k g
      | some b =>
        match alistFind? k g with
        | none => some b
        | some a => if a.score < b.score then some b else some a := by
  induction v generalizing g with
  | nil => simp [fuseGraphVector]
  | cons e t ih =>
    obtain ⟨k₁, r⟩ := e
    rcases List.nodup_cons.mp hv with ⟨hk₁, ht⟩
    have hstep : fuseGraphVector g ((k₁, r) :: t) =
        fuseGraphVector
          (match alistFind? k₁ g with
           | none => alistInsert k₁ r g
           | some b => if b.score < r.score then alistInsert k₁ r g else g) t := rfl
    rw [hstep, ih _ ht]
    by_cases hk : k₁ = k
    · subst hk
      have hvt : alistFind? k₁ t = none :=
        alistFind?_eq_none_of_not_mem k₁ t hk₁
      rw [hvt]
      simp only [alistFind?_cons, if_pos rfl]
      cases hg : alistFind? k₁ g with
      | none => simp [alistFind?_insert_self]
      | some a =>
        by_cases hs : a.score < r.score
        · simp [hs, alistFind?_insert_self]
        · simp [hs, hg]
    · have hne : ¬(k₁ = k) := hk
      simp only [alistFind?_cons, if_neg hne]
      have hgg :
          alistFind? k
            (match alistFind? k₁ g with
             | none => alistInsert k₁ r g
             | some b => if b.score < r.score then alistInsert k₁ r g else g) =
          alistFind? k g := by
        cases alistFind? k₁ g with
        | none => exact alistFind?_insert_ne k k₁ r g (fun hh => hk hh.symm)
        | some b =>
          by_cases hs : b.score < r.score
          · simpa [hs] using alistFind?_insert_ne k k₁ r g (fun hh => hk hh.symm)
          · simp [hs]
      rw [hgg]

theorem nodup_alistKeys_fuseGraphVector (g v : List (String × Candidate))
    (hg : (alistKeys g).Nodup) :
    (alistKeys (fuseGraphVector g v)).Nodup := by
  induction v generalizing g with
  | nil => exact hg
  | cons e t ih =>
    obtain ⟨k₁, r⟩ := e
    have hstep : fuseGraphVector g ((k₁, r) :: t) =
        fuseGraphVector
          (match alistFind? k₁ g with
           | none => alistInsert k₁ r g
           | some b => if b.score < r.score then alistInsert k₁ r g else g) t := rfl
    rw [hstep]
    refine ih _ ?_
    cases alistFind? k₁ g with
    | none => exact nodup_alistKeys_insert _ _ _ hg
    | some b =>
      by_cases hs : b.score < r.score
      · simpa [hs] using nodup_alistKeys_insert k₁ r g hg
      · simpa [hs] using hg

/-! ## Lemmas about the reranker -/

theorem rerank_some_eq (ps : List ℚ) (docs : List Candidate) (k : Nat)
    (hne : docs.isEmpty = false)
    (hvalne : (docs.filter BGEReranker.validDoc).isEmpty = false) :
    BGEReranker.rerank (some ps) docs k =
      (BGEReranker.normalizeByMax
        (sortDescBy (fun d => d.rerank_score.getD 0)
          (BGEReranker.scoredDocs ps (docs.filter BGEReranker.validDoc)))).take k := by
  unfold BGEReranker.rerank
  rw [if_neg (by simp [hne]), if_neg (by simp [hvalne])]

theorem validDoc_scoredDocs (ps : List ℚ) (valid : List Candidate)
    (h : ∀ d ∈ valid, BGEReranker.validDoc d = true) :
    ∀ d ∈ BGEReranker.scoredDocs ps valid, BGEReranker.validDoc d = true := by
  intro d hd
  obtain ⟨dp, hdp, hmk⟩ := List.mem_map.mp hd
  have : dp.1 ∈ valid := (List.of_mem_zip hdp).1
  rw [← hmk]
  exact h dp.1 this

theorem validDoc_normalizeByMax (sorted : List Candidate)
    (h : ∀ d ∈ sorted, BGEReranker.validDoc d = true) :
    ∀ d ∈ BGEReranker.normalizeByMax sorted, BGEReranker.validDoc d = true := by
  unfold BGEReranker.normalizeByMax
  cases hh : sorted.head? with
  | none => exact h
  | some top =>
    by_cases hmx : 0 < top.rerank_score.getD 0
    · simp only [if_pos hmx]
      intro d hd
      obtain ⟨d₂, hd₂, hmk⟩ := List.mem_map.mp hd
      rw [← hmk]
      exact h d₂ hd₂
    · simpa [hmx] using h

theorem normalizeByMax_pos (sorted : List Candidate) (top : Candidate)
    (hh : sorted.head? = some top) (hmx : 0 < top.rerank_score.getD 0) :
    BGEReranker.normalizeByMax sorted =
      sorted.map (fun d =>
        { d with
          raw_rerank_score := d.rerank_score
          score := d.rerank_score.getD 0 / top.rerank_score.getD 0 }) := by
  unfold BGEReranker.normalizeByMax
  rw [hh]
  simp [hmx]

/-- Claim C2: `QueryRouter.route` classifies every query exactly per the
routing table: entities present with a lookup keyword and no relationship
keyword gives ENTITY_LOOKUP (graph only); entities with a relationship
keyword gives MULTI_HOP (both); entities with neither keyword gives HYBRID
(both); no entities gives SEMANTIC (vector only). -/
theorem route_classification_table (q : String) :
    ((QueryRouter.route q).query_type,
     (QueryRouter.route q).use_graph,
     (QueryRouter.route q).use_vector) =
      (if QueryRouter.extract_entities q ≠ [] ∧ QueryRouter.is_lookup_query q ∧
          ¬QueryRouter.is_relationship_query q then
        (QueryType.ENTITY_LOOKUP, true, false)
      else if QueryRouter.extract_entities q ≠ [] ∧
          QueryRouter.is_relationship_query q then
        (QueryType.MULTI_HOP, true, true)
      else if QueryRouter.extract_entities q ≠ [] then
        (QueryType.HYBRID, true, true)
      else
        (QueryType.SEMANTIC, false, true)) := by
  by_cases hA : QueryRouter.extract_entities q = []
  · simp [QueryRouter.route, hA]
  · by_cases hR : QueryRouter.is_relationship_query q
    · simp [QueryRouter.route, hA, hR]
    · by_cases hL : QueryRouter.is_lookup_query q
      · simp [QueryRouter.route, hA, hR, hL]
      · simp [QueryRouter.route, hA, hR, hL]

/-- Claim C5 (counterexample): for the query `労働基準法第32条`, the
contained article-only match `第32条` IS emitted as a separate entity, so
article-only matches are not suppressed as substrings of an earlier
law+article match. -/
theorem extract_entities_contained_article_emitted :
    ("第32条", "article") ∈ QueryRouter.extract_entities "労働基準法第32条" := by
  decide

/-- Claim C5 (amended): the three patterns are applied in order and only a
law-name match that is a substring of an earlier entity is suppressed;
article-only matches are always emitted.  For `労働基準法第32条` the
entities are the law+article reference followed by the contained
article-only match, while the bare law name `労働基準法` is suppressed. -/
theorem extract_entities_law_article_example :
    QueryRouter.extract_entities "労働基準法第32条" =
      [("労働基準法第32条", "law_article"), ("第32条", "article")] := by
  decide

/-- Claim C9 (counterexample): the inbound `ChatQuery.top_k` validation
rejects 30 (which the claimed range 1..50 would accept) and its default is
5, not 10. -/
theorem validateTopK_rejects_30 :
    ChatQuery.validateTopK (some 30) = none ∧
      ChatQuery.validateTopK none ≠ some 10 := by
  decide

/-- Claim C9 (amended): the inbound chat interface accepts a `top_k`
option ranging over 1..20 with default 5, rejecting values outside that
range as input errors. -/
theorem validateTopK_range_and_default (n : Int) :
    (ChatQuery.validateTopK (some n) = some n ↔ 1 ≤ n ∧ n ≤ 20)
    ∧ (ChatQuery.validateTopK (some n) = none ↔ (n < 1 ∨ 20 < n))
    ∧ ChatQuery.validateTopK none = some 5 := by
  by_cases h : 1 ≤ n ∧ n ≤ 20
  · exact ⟨by simp [ChatQuery.validateTopK, h],
      by simp [ChatQuery.validateTopK, h], rfl⟩
  · exact ⟨by simp [ChatQuery.validateTopK, h],
      by simp [ChatQuery.validateTopK, h]; omega, rfl⟩

/-- Claim C10: a graph result promoted to a candidate carries as payload
text the article caption when non-empty, else the article title when
non-empty, else the empty string; consequently a graph hit with neither
caption nor title surfaces with empty text in the public
`SourceDocument`. -/
theorem graph_candidate_text_caption_title (w : ℚ) (gr : GraphResult) :
    ((GraphRAGPipeline.graphResultToCandidate w gr).payload.text =
      (if optTruthy gr.article_caption then gr.article_caption.getD ""
       else if optTruthy gr.article_title then gr.article_title.getD "" else ""))
    ∧ ((optTruthy gr.article_caption || optTruthy gr.article_title) = false →
        (BasePipeline.to_source_document
          (GraphRAGPipeline.graphResultToCandidate w gr)).text = "") := by
  constructor
  · rfl
  · intro h
    rcases Bool.or_eq_false_iff.mp h with ⟨h₁, h₂⟩
    simp [BasePipeline.to_source_document, GraphRAGPipeline.graphResultToCandidate,
      pyOrStr, h₁, h₂]

/-- Claim C3: the fusion/filter step keeps exactly the candidates at or
above the threshold from the score-descending sort, and falls back to the
top-3 of the unfiltered sort (all of them when fewer than 3 exist) when no
candidate meets the threshold. -/
theorem filter_and_sort_threshold (t : ℚ) (m : List (String × Candidate)) :
    (BasePipeline.filter_and_sort_results t m =
      if (alistValues m).any (fun r => t ≤ r.score) then
        (BasePipeline.sorted_results m).filter (fun r => t ≤ r.score)
      else (BasePipeline.sorted_results m).take 3)
    ∧ ((alistValues m).all (fun r => r.score < t) →
        (BasePipeline.filter_and_sort_results t m).length =
          min 3 (alistValues m).length) := by
  have hmem : ∀ r : Candidate,
      r ∈ BasePipeline.sorted_results m ↔ r ∈ alistValues m := fun r =>
    mem_sortDescBy (fun r : Candidate => r.score)
  have hkey : ((BasePipeline.sorted_results m).filter
      (fun r => t ≤ r.score)).isEmpty = !(alistValues m).any (fun r => t ≤ r.score) := by
    cases hany : (alistValues m).any (fun r => t ≤ r.score) with
    | true =>
      obtain ⟨r, hr, hrt⟩ := List.any_eq_true.mp hany
      simp only [Bool.not_true]
      refine Bool.not_eq_true _ ▸ ?_
      intro hemp
      have := List.filter_eq_nil_iff.mp (List.isEmpty_iff.mp hemp) r ((hmem r).mpr hr)
      exact this hrt
    | false =>
      simp only [Bool.not_false]
      refine List.isEmpty_iff.mpr (List.filter_eq_nil_iff.mpr ?_)
      intro r hr hrt
      have : (alistValues m).any (fun r => t ≤ r.score) = true :=
        List.any_eq_true.mpr ⟨r, (hmem r).mp hr, hrt⟩
      rw [this] at hany
      exact Bool.true_eq_false.mp hany
  have hunfold : BasePipeline.filter_and_sort_results t m =
      if ((BasePipeline.sorted_results m).filter (fun r => t ≤ r.score)).isEmpty
      then (BasePipeline.sorted_results m).take 3
      else (BasePipeline.sorted_results m).filter (fun r => t ≤ r.score) := rfl
  constructor
  · rw [hunfold, hkey]
    cases hany : (alistValues m).any (fun r => t ≤ r.score) <;> simp
  · intro hall
    have hany : (alistValues m).any (fun r => t ≤ r.score) = false := by
      rcases h : (alistValues m).any (fun r => t ≤ r.score) with - | -
      · rfl
      · obtain ⟨r, hr, hrt⟩ := List.any_eq_true.mp h
        have := List.all_eq_true.mp hall r hr
        simp only [decide_eq_true_eq] at this hrt
        exact absurd hrt (not_le_of_lt this)
    rw [hunfold, hkey, hany]
    simp [BasePipeline.sorted_results, List.length_take, length_sortDescBy]

/-- Claim C6 (counterexample): with two equal-score candidates whose
chunk ids arrive in the order `b`, `a`, the post-fusion sort keeps `b`
first, so ties are not broken lexicographically by chunk id. -/
theorem sorted_results_not_tie_broken_by_id :
    ¬ List.Pairwise
        (fun a b : Candidate => a.score = b.score → lexLt a.id.data b.id.data = true)
        (BasePipeline.sorted_results tieMap) := by
  decide

/-- Claim C6 (amended): at the post-fusion sort point the candidate list is
sorted by score descending, and candidates with equal score keep the
insertion order of the merged map (the sort is stable) rather than being
reordered by chunk id; the threshold/fallback output is sorted the same
way. -/
theorem sorted_results_stable_desc (t : ℚ) (m : List (String × Candidate)) :
    List.Pairwise (fun a b : Candidate => b.score ≤ a.score)
      (BasePipeline.sorted_results m)
    ∧ (∀ c : ℚ, (BasePipeline.sorted_results m).filter (fun r => r.score == c) =
        (alistValues m).filter (fun r => r.score == c))
    ∧ List.Pairwise (fun a b : Candidate => b.score ≤ a.score)
        (BasePipeline.filter_and_sort_results t m) := by
  refine ⟨pairwise_sortDescBy _ _, fun c => filter_sortDescBy _ c _, ?_⟩
  have hp : List.Pairwise (fun a b : Candidate => b.score ≤ a.score)
      (BasePipeline.sorted_results m) := pairwise_sortDescBy _ _
  have hunfold : BasePipeline.filter_and_sort_results t m =
      if ((BasePipeline.sorted_results m).filter (fun r => t ≤ r.score)).isEmpty
      then (BasePipeline.sorted_results m).take 3
      else (BasePipeline.sorted_results m).filter (fun r => t ≤ r.score) := rfl
  rw [hunfold]
  by_cases hemp : ((BasePipeline.sorted_results m).filter
      (fun r => t ≤ r.score)).isEmpty = true
  · rw [if_pos hemp]
    exact List.Pairwise.sublist (List.take_sublist 3 _) hp
  · rw [if_neg hemp]
    exact List.Pairwise.sublist (List.filter_sublist _) hp

/-- Claim C8: the translate gate issues no LLM call and returns the query
unchanged exactly when the proportion of Japanese-script characters among
the countable (non-whitespace, non-punctuation) characters is at least
one half; queries below that ratio, including those with no countable
characters at all, are sent for translation. -/
theorem translate_japanese_gate (gen : String → String) (q : String) :
    QueryTranslator.translate gen q =
      (if 0 < QueryTranslator.totalCount q ∧
          (1 : ℚ)/2 ≤ (QueryTranslator.jpCount q : ℚ) / (QueryTranslator.totalCount q : ℚ)
       then (q, false)
       else ((gen q).trim, true)) := by
  unfold QueryTranslator.translate QueryTranslator.is_japanese
  by_cases hq : q = ""
  · subst hq
    have h0 : QueryTranslator.totalCount "" = 0 := rfl
    simp [h0]
  · simp only [if_neg hq]
    by_cases h0 : QueryTranslator.totalCount q = 0
    · simp [h0]
    · have hpos : 0 < QueryTranslator.totalCount q := Nat.pos_of_ne_zero h0
      simp only [if_neg h0]
      by_cases hr : (1 : ℚ)/2 ≤
          (QueryTranslator.jpCount q : ℚ) / (QueryTranslator.totalCount q : ℚ)
      · simp [hr, hpos]
      · simp [hr, hpos]

/-- Claim C7 (counterexample): with one valid and one empty-text document,
the reranker's output contains only the rescored valid document; the
empty-text candidate is not appended at the tail. -/
theorem rerank_blank_text_not_appended :
    (BGEReranker.rerank (some [1]) blankTextDocs 5).map (fun d => d.id) = ["v"]
    ∧ ¬ ∃ d ∈ BGEReranker.rerank (some [1]) blankTextDocs 5, d.id = "e" := by
  decide

/-- Claim C7 (amended): candidates whose payload text is empty (or
whitespace-only) are excluded from cross-encoder rescoring and omitted
from the returned list entirely whenever at least one candidate has
non-blank text — they are not appended at the tail. -/
theorem rerank_omits_blank_text (probs : List ℚ) (docs : List Candidate)
    (k : Nat) (h : docs.any BGEReranker.validDoc = true) :
    (BGEReranker.rerank (some probs) docs k).all BGEReranker.validDoc = true := by
  have hne : docs.isEmpty = false := by
    cases docs
    · simp at h
    · rfl
  obtain ⟨dv, hdv, hdvv⟩ := List.any_eq_true.mp h
  have hvmem : dv ∈ docs.filter BGEReranker.validDoc :=
    List.mem_filter.mpr ⟨hdv, hdvv⟩
  have hvalne : (docs.filter BGEReranker.validDoc).isEmpty = false := by
    cases hfe : docs.filter BGEReranker.validDoc with
    | nil =>
      rw [hfe] at hvmem
      simp at hvmem
    | cons a b => rfl
  rw [rerank_some_eq probs docs k hne hvalne]
  refine List.all_eq_true.mpr ?_
  intro d hd
  have hd₂ := List.take_subset k _ hd
  refine validDoc_normalizeByMax _ ?_ d hd₂
  intro d₃ hd₃
  have hd₄ := (mem_sortDescBy _).mp hd₃
  refine validDoc_scoredDocs probs _ ?_ d₃ hd₄
  intro d₅ hd₅
  exact (List.mem_filter.mp hd₅).2

/-- Claim C7 (witness): the amended statement applied to the concrete
valid/blank document pair. -/
theorem rerank_omits_blank_text_witness :
    (BGEReranker.rerank (some [1]) blankTextDocs 3).all BGEReranker.validDoc = true :=
  rerank_omits_blank_text [1] blankTextDocs 3 (by decide)

/-- Claim C4: when the reranker successfully rescores a non-empty list of
candidates that all carry non-empty text (the cross-encoder returning one
strictly positive sigmoid probability per candidate), the returned list is
sorted by `rerank_score` descending, has length at most `top_k`, every
returned candidate's `score` is its `rerank_score` divided by the maximal
rerank score, and the first returned candidate's `score` is exactly 1. -/
theorem rerank_sorted_normalized (probs : List ℚ) (docs : List Candidate)
    (k : Nat) (hne : docs ≠ [])
    (htext : docs.all BGEReranker.validDoc = true)
    (hlen : probs.length = docs.length)
    (hpos : probs.all (fun p => decide (0 < p)) = true)
    (hk : 0 < k) :
    List.Pairwise
      (fun a b : Candidate => b.rerank_score.getD 0 ≤ a.rerank_score.getD 0)
      (BGEReranker.rerank (some probs) docs k)
    ∧ (BGEReranker.rerank (some probs) docs k).length ≤ k
    ∧ (∃ mx : ℚ, mx ∈ probs ∧ (∀ p ∈ probs, p ≤ mx) ∧
        ∀ d ∈ BGEReranker.rerank (some probs) docs k,
          d.score = d.rerank_score.getD 0 / mx)
    ∧ (BGEReranker.rerank (some probs) docs k).head?.map (fun d => d.score) =
        some 1 := by
  have hval : docs.filter BGEReranker.validDoc = docs :=
    List.filter_eq_self.mpr (List.all_eq_true.mp htext)
  have hne2 : docs.isEmpty = false := by
    cases docs
    · exact absurd rfl hne
    · rfl
  have hvalne : (docs.filter BGEReranker.validDoc).isEmpty = false := by
    rw [hval]
    exact hne2
  have hrw := rerank_some_eq probs docs k hne2 hvalne
  rw [hval] at hrw
  have hlenscored : (BGEReranker.scoredDocs probs docs).length = docs.length := by
    unfold BGEReranker.scoredDocs
    rw [List.length_map, List.length_zip, hlen, min_self]
  have hmap : (BGEReranker.scoredDocs probs docs).map (fun d => d.rerank_score) =
      probs.map some := by
    unfold BGEReranker.scoredDocs
    rw [List.map_map]
    have h₁ : ((fun d : Candidate => d.rerank_score) ∘ fun dp : Candidate × ℚ =>
        ({ dp.1 with
           rerank_score := some dp.2
           original_score := some dp.1.score
           score := dp.2 } : Candidate)) = (some ∘ Prod.snd) := rfl
    rw [h₁, ← List.map_map, List.map_snd_zip]
    exact le_of_eq hlen
  have hsortlen : (sortDescBy (fun d : Candidate => d.rerank_score.getD 0)
      (BGEReranker.scoredDocs probs docs)).length = docs.length := by
    rw [length_sortDescBy, hlenscored]
  have hsne : sortDescBy (fun d : Candidate => d.rerank_score.getD 0)
      (BGEReranker.scoredDocs probs docs) ≠ [] := by
    intro h0
    rw [h0] at hsortlen
    exact hne (List.length_eq_zero.mp hsortlen.symm)
  obtain ⟨top, ys, hsorted⟩ := List.exists_cons_of_ne_nil hsne
  have hh : (sortDescBy (fun d : Candidate => d.rerank_score.getD 0)
      (BGEReranker.scoredDocs probs docs)).head? = some top := by
    rw [hsorted]
    rfl
  have htopmem : top ∈ BGEReranker.scoredDocs probs docs :=
    (mem_sortDescBy _).mp (hsorted ▸ List.mem_cons_self top ys)
  have htoprr : ∃ p ∈ probs, top.rerank_score = some p := by
    have h₁ : top.rerank_score ∈
        (BGEReranker.scoredDocs probs docs).map (fun d => d.rerank_score) :=
      List.mem_map_of_mem _ htopmem
    rw [hmap] at h₁
    obtain ⟨p, hp, hps⟩ := List.mem_map.mp h₁
    exact ⟨p, hp, hps.symm⟩
  obtain ⟨mp, hmpmem, hmpeq⟩ := htoprr
  have hmxeq : top.rerank_score.getD 0 = mp := by
    rw [hmpeq]
    rfl
  have hmxpos : 0 < top.rerank_score.getD 0 := by
    rw [hmxeq]
    simpa using List.all_eq_true.mp hpos mp hmpmem
  have hnorm := normalizeByMax_pos _ top hh hmxpos
  rw [hnorm] at hrw
  have hpair := pairwise_sortDescBy (fun d : Candidate => d.rerank_score.getD 0)
    (BGEReranker.scoredDocs probs docs)
  have hmax : ∀ p ∈ probs, p ≤ top.rerank_score.getD 0 := by
    intro p hp
    have h₁ : some p ∈
        (BGEReranker.scoredDocs probs docs).map (fun d => d.rerank_score) := by
      rw [hmap]
      exact List.mem_map_of_mem some hp
    obtain ⟨d, hd, hdr⟩ := List.mem_map.mp h₁
    have hds : d ∈ top :: ys := by
      rw [← hsorted]
      exact (mem_sortDescBy _).mpr hd
    have hdp : d.rerank_score.getD 0 = p := by
      rw [hdr]
      rfl
    rcases List.mem_cons.mp hds with h₂ | h₂
    · rw [← hdp, h₂]
    · have hp₂ := hsorted ▸ hpair
      have := (List.pairwise_cons.mp hp₂).1 d h₂
      rw [hdp] at this
      exact this
  refine ⟨?_, ?_, ⟨top.rerank_score.getD 0, hmxeq ▸ hmpmem, hmax, ?_⟩, ?_⟩
  · rw [hrw]
    refine List.Pairwise.sublist (List.take_sublist k _) ?_
    refine List.pairwise_map.mpr ?_
    exact hpair
  · rw [hrw, List.length_take]
    exact min_le_left _ _
  · rw [hrw]
    intro d hd
    have hd₂ := List.take_subset k _ hd
    obtain ⟨d₂, hd₂s, hdn⟩ := List.mem_map.mp hd₂
    rw [← hdn]
  · rw [hrw, hsorted]
    cases k with
    | zero => exact absurd hk (by simp)
    | succ k₂ =>
      rw [List.map_cons, List.take_succ_cons, List.head?_cons]
      simp only [Option.map_some']
      exact congrArg some (div_self (ne_of_gt hmxpos))

/-- Claim C4 (witness): the reranker statement applied to two concrete
documents with probabilities 1 and 2 and `top_k = 2`. -/
theorem rerank_sorted_normalized_witness :
    List.Pairwise
      (fun a b : Candidate => b.rerank_score.getD 0 ≤ a.rerank_score.getD 0)
      (BGEReranker.rerank (some [1, 2]) rerankDocs 2)
    ∧ (BGEReranker.rerank (some [1, 2]) rerankDocs 2).length ≤ 2
    ∧ (∃ mx : ℚ, mx ∈ [1, 2] ∧ (∀ p ∈ ([1, 2] : List ℚ), p ≤ mx) ∧
        ∀ d ∈ BGEReranker.rerank (some [1, 2]) rerankDocs 2,
          d.score = d.rerank_score.getD 0 / mx)
    ∧ (BGEReranker.rerank (some [1, 2]) rerankDocs 2).head?.map
        (fun d => d.score) = some 1 :=
  rerank_sorted_normalized [1, 2] rerankDocs 2 (by decide) (by decide)
    (by decide) (by decide) (by decide)

/-- Claim C1: candidate merging keys candidates uniquely by chunk id.  The
multi-query merge and the graph/vector fusion both keep pairwise-distinct
keys; the entry stored for a chunk id is the first candidate (tagged with
source "vector") attaining the maximal score among all fan-out candidates
with that id, so an existing entry is replaced only by a strictly higher
score; and fusing a graph map with the vector map keeps, per key, the
graph entry unless the vector score strictly exceeds it. -/
theorem merged_candidates_unique_max (rls : List (List Candidate))
    (g : List (String × Candidate)) (hg : (alistKeys g).Nodup) :
    ((alistKeys (vector_search_multi rls)).Nodup
      ∧ (alistKeys (fuseGraphVector g (vector_search_multi rls))).Nodup)
    ∧ (∀ k c, alistFind? k (vector_search_multi rls) = some c →
        (∀ d ∈ rls.flatten, d.id = k → d.score ≤ c.score)
        ∧ ∃ pre d₀ post,
            rls.flatten.filter (fun d => d.id == k) = pre ++ d₀ :: post
            ∧ c = retagVector d₀ ∧ ∀ d ∈ pre, d.score < c.score)
    ∧ (∀ k a b, alistFind? k g = some a →
        alistFind? k (vector_search_multi rls) = some b →
        alistFind? k (fuseGraphVector g (vector_search_multi rls)) =
          some (if a.score < b.score then b else a)) := by
  have hscore : ∀ c : Candidate, (retagVector c).score = c.score := fun c => rfl
  have hv : (alistKeys (vector_search_multi rls)).Nodup := by
    rw [vector_search_multi_eq_foldl]
    exact nodup_alistKeys_foldl_mergeStep _ _ [] (by simp)
  refine ⟨⟨hv, nodup_alistKeys_fuseGraphVector g _ hg⟩, ?_, ?_⟩
  · intro k c hc
    rw [vector_search_multi_eq_foldl, alistFind?_foldl_mergeStep,
      alistFind?_nil] at hc
    obtain ⟨hall, pre, d₀, post, hdec, hcd, hpre⟩ :=
      foldl_mergeAcc_none_spec retagVector hscore _ c hc
    constructor
    · intro d hd hdk
      exact hall d (List.mem_filter.mpr ⟨hd, by simp [hdk]⟩)
    · exact ⟨pre, d₀, post, hdec, hcd, hpre⟩
  · intro k a b ha hb
    have h₂ : alistFind? k (fuseGraphVector g (vector_search_multi rls)) =
        if a.score < b.score then some b else some a := by
      have h₃ := alistFind?_fuseGraphVector g (vector_search_multi rls) k hv
      rw [hb, ha] at h₃
      exact h₃
    rw [h₂]
    exact (apply_ite some (a.score < b.score) b a).symm

/-- Claim C1 (witness): the merge statement applied to a concrete fan-out
with chunk id `a` repeated across search texts and a graph map overlapping
on chunk id `b`. -/
theorem merged_candidates_unique_max_witness :
    ((alistKeys (vector_search_multi fanoutLists)).Nodup
      ∧ (alistKeys (fuseGraphVector graphSeed (vector_search_multi fanoutLists))).Nodup)
    ∧ (∀ k c, alistFind? k (vector_search_multi fanoutLists) = some c →
        (∀ d ∈ fanoutLists.flatten, d.id = k → d.score ≤ c.score)
        ∧ ∃ pre d₀ post,
            fanoutLists.flatten.filter (fun d => d.id == k) = pre ++ d₀ :: post
            ∧ c = retagVector d₀ ∧ ∀ d ∈ pre, d.score < c.score)
    ∧ (∀ k a b, alistFind? k graphSeed = some a →
        alistFind? k (vector_search_multi fanoutLists) = some b →
        alistFind? k (fuseGraphVector graphSeed (vector_search_multi fanoutLists)) =
          some (if a.score < b.score then b else a)) :=
  merged_candidates_unique_max fanoutLists graphSeed (by decide)

end Norman
